import Mathlib

/-!
Verification of the reconciliation and scheduling core of
`sync_assignments.py` (the DDL-collector script).

The embedding models the core data and operations of the script:
identity derivation (`task_id`), timestamp parsing (`parse_iso`),
the registry merge (`merge_tasks`), the urgency classifier
(`urgency_label`), and the pending-list construction in `main`.

Conventions of the embedding:
- An instant is an integer count of seconds since the Unix epoch.
  Offset-aware Python datetimes compare by their instant.
- A Python `datetime` value is a `DateTime`: civil fields plus a fixed
  UTC offset in seconds.  Conversion to an instant uses the standard
  proleptic-Gregorian days-from-civil algorithm.
- A stored due string is a `DueStr`: either the canonical
  `isoformat` rendering of a datetime, or the empty string, or a
  non-empty string `datetime.fromisoformat` rejects.
- Code that can raise returns `Except Unit`; a raised `ValueError` or
  `TypeError` is `.error ()`.
- The script reads the ambient clock (`now_ct()`) inside
  `merge_tasks`, `urgency_label` and `main`; the embedding surfaces
  that ambient instant as an explicit `now` / `today` parameter.
-/

namespace Sync

/-- Civil date/time with a fixed UTC offset, modelling an offset-aware
Python `datetime` (offset in seconds east of UTC; pytz offsets are
whole minutes).  Python enforces 1 ≤ year ≤ 9999, 1 ≤ month ≤ 12,
1 ≤ day ≤ 31, hour < 24, minute < 60, second < 60; theorems that need
these bounds take them as hypotheses. -/
structure DateTime where
  year : Nat
  month : Nat
  day : Nat
  hour : Nat
  minute : Nat
  second : Nat
  offset : Int
  deriving DecidableEq, Repr

/-- Days since 1970-01-01 of a proleptic-Gregorian civil date (year at
least 1), the arithmetic underlying `datetime` date ordinals. -/
def daysFromCivil (y m d : Nat) : Int :=
  let yy := if m ≤ 2 then y - 1 else y
  let era := yy / 400
  let yoe := yy % 400
  let mp := if 2 < m then m - 3 else m + 9
  let doy := (153 * mp + 2) / 5 + (d - 1)
  let doe := yoe * 365 + yoe / 4 - yoe / 100 + doy
  (era : Int) * 146097 + (doe : Int) - 719468

/-- The UTC instant (seconds since the Unix epoch) of a `DateTime`:
local civil seconds minus the UTC offset.  Python compares offset-aware
datetimes by exactly this instant. -/
def DateTime.instant (dt : DateTime) : Int :=
  daysFromCivil dt.year dt.month dt.day * 86400
    + (dt.hour : Int) * 3600 + (dt.minute : Int) * 60 + (dt.second : Int)
    - dt.offset

/-- Decimal digit character for a digit value below ten. -/
def digitChar (n : Nat) : Char := Char.ofNat (48 + n)

/-- Two-digit zero-padded decimal rendering, as Python `%02d` / `%m` /
`%d` on their valid ranges. -/
def pad2 (n : Nat) : List Char := [digitChar (n / 10 % 10), digitChar (n % 10)]

/-- Four-digit zero-padded decimal rendering, as Python `%Y` on the
valid year range 1..9999. -/
def pad4 (n : Nat) : List Char :=
  [digitChar (n / 1000 % 10), digitChar (n / 100 % 10),
   digitChar (n / 10 % 10), digitChar (n % 10)]

/-- Offset suffix printed by `datetime.isoformat`: sign, two-digit
hours, colon, two-digit minutes. -/
def renderOffset (off : Int) : List Char :=
  if off < 0 then
    '-' :: (pad2 ((-off).toNat / 3600) ++ ':' :: pad2 ((-off).toNat % 3600 / 60))
  else
    '+' :: (pad2 (off.toNat / 3600) ++ ':' :: pad2 (off.toNat % 3600 / 60))

/-- Rendering of `datetime.isoformat()` for a second-resolution
offset-aware datetime: year-month-day, `T`, hour:minute:second, offset. -/
def renderIso (dt : DateTime) : String :=
  ⟨pad4 dt.year ++ '-' :: pad2 dt.month ++ '-' :: pad2 dt.day
    ++ 'T' :: pad2 dt.hour ++ ':' :: pad2 dt.minute ++ ':' :: pad2 dt.second
    ++ renderOffset dt.offset⟩

/-- A stored due string as found in the persisted registry.
`iso dt` stands for the canonical `isoformat` rendering of `dt` (what
`merge_tasks` writes); `empty` is the empty string (falsy, so
`parse_iso` returns `None`); `malformed s` is a non-empty string on
which `datetime.fromisoformat` raises `ValueError`. -/
inductive DueStr where
  | iso (dt : DateTime)
  | empty
  | malformed (s : String)
  deriving DecidableEq, Repr

/-- Raw text of a stored due string — the value `main` sorts by. -/
def DueStr.toStr : DueStr → String
  | .iso dt => renderIso dt
  | .empty => ""
  | .malformed s => s

/-- Model of `parse_iso` (src lines 31-33): empty input returns `None`;
a well-formed ISO string parses to its datetime, which `astimezone`
converts to Central time preserving the instant (so the model returns
the instant, the only attribute the merge and the pending filter use);
a malformed non-empty string makes `datetime.fromisoformat` raise
`ValueError`, modelled as `.error ()`. -/
def parse_iso : DueStr → Except Unit (Option Int)
  | .empty => .ok none
  | .iso dt => .ok (some dt.instant)
  | .malformed _ => .error ()

/-- Title normalization inside `task_id` (src line 36): lowercase each
character, then every character outside lowercase letters and digits
becomes an underscore (the regex `[^a-z0-9]` replaced by `_`). -/
def normalizeTitle (title : String) : String :=
  ⟨title.data.map fun c =>
    let lc := c.toLower
    if ('a' ≤ lc ∧ lc ≤ 'z') ∨ ('0' ≤ lc ∧ lc ≤ '9') then lc else '_'⟩

/-- Rendering of `due.strftime("%Y%m%d")`: the fixed-width 8-digit
local calendar date of the due datetime. -/
def date8 (dt : DateTime) : List Char := pad4 dt.year ++ pad2 dt.month ++ pad2 dt.day

/-- Model of `task_id` (src lines 35-37): normalized title, a double
underscore, then the 8-digit due date. -/
def task_id (title : String) (due : DateTime) : String :=
  normalizeTitle title ++ "__" ++ ⟨date8 due⟩

/-- An `ObservedAssignment` dict as built by `make_assignment`
(src lines 39-40). -/
structure Obs where
  title : String
  course : String
  due : DateTime
  source : String
  url : String
  deriving DecidableEq, Repr

/-- A persisted task record: one value of the `tasks.json` object. -/
structure TaskRecord where
  id : String
  title : String
  course : String
  due : DueStr
  source : String
  url : String
  completed : Bool
  deriving DecidableEq, Repr

/-- The registry: the persisted id-to-record mapping, modelled as an
insertion-ordered association list (a Python dict preserves insertion
order and has unique keys). -/
abbrev Registry := List (String × TaskRecord)

/-- The record `merge_tasks` inserts for an observation with a novel id
(src lines 191-196): metadata from the observation, `due` stored via
`isoformat`, `completed` false. -/
def newRecord (tid : String) (a : Obs) : TaskRecord :=
  { id := tid, title := a.title, course := a.course, due := .iso a.due,
    source := a.source, url := a.url, completed := false }

/-- First loop of `merge_tasks` (src lines 188-196): walk the fresh
batch in order, inserting a new record whenever the derived id is not
yet a key; an observation whose id is already a key changes nothing. -/
def insertFresh : Registry → List Obs → Registry
  | upd, [] => upd
  | upd, a :: rest =>
    let tid := task_id a.title a.due
    if (upd.lookup tid).isSome then insertFresh upd rest
    else insertFresh (upd ++ [(tid, newRecord tid a)]) rest

/-- The ids derived from the fresh batch (`fresh_ids`, src line 187). -/
def freshIds (fresh : List Obs) : List String :=
  fresh.map fun a => task_id a.title a.due

/-- Second loop of `merge_tasks` (src lines 197-202): every entry whose
id is not among the fresh ids has its stored due parsed; a raised
`ValueError` aborts the merge, a parsed instant strictly before `now`
deletes the entry, and anything else (including an unparseable empty
due) is retained unchanged.  Entries with a fresh id are never parsed. -/
def pruneStale (fids : List String) (now : Int) : Registry → Except Unit Registry
  | [] => .ok []
  | e :: rest =>
    if fids.contains e.1 then
      (pruneStale fids now rest).map (e :: ·)
    else
      match parse_iso e.2.due with
      | .error u => .error u
      | .ok none => (pruneStale fids now rest).map (e :: ·)
      | .ok (some d) =>
        if d < now then pruneStale fids now rest
        else (pruneStale fids now rest).map (e :: ·)

/-- Model of `merge_tasks` (src lines 184-203).  The Python reads the
ambient clock (`now = now_ct()`) inside the function body; the
embedding surfaces that ambient instant as the explicit parameter
`now`. -/
def merge_tasks (existing : Registry) (fresh : List Obs) (now : Int) :
    Except Unit Registry :=
  pruneStale (freshIds fresh) now (insertFresh existing fresh)

/-- The urgency tiers of the design, one per branch of `urgency_label`
(src lines 214-221): `urgent` renders as an hours-left warning,
`tomorrow`, `near` and `week` as day counts in distinct colors, and
`later` as the green day count. -/
inductive Tier where
  | urgent
  | tomorrow
  | near
  | week
  | later
  deriving DecidableEq, Repr

/-- Model of `urgency_label` (src lines 214-221) at tier granularity.
The Python reads `now_ct()` internally; the embedding takes the
ambient instant `now` explicitly.  The hour count truncates toward
zero as Python `int(total_seconds() / 3600)` does on these magnitudes
(`Int.tdiv`), and the day count floors as `h // 24` does (`Int.fdiv`). -/
def urgency_label (due now : Int) : Tier :=
  let h := Int.tdiv (due - now) 3600
  if h < 24 then .urgent
  else
    let d := Int.fdiv h 24
    if d = 1 then .tomorrow
    else if d ≤ 3 then .near
    else if d ≤ 7 then .week
    else .later

/-- The pending filter in `main` (src lines 330-331): keep records with
`completed` false whose due parses to an instant strictly after
`today`.  On a record with an empty due Python evaluates
`None > today`, raising `TypeError`; on a malformed due `parse_iso`
raises `ValueError`; either aborts, modelled as `.error ()`. -/
def pendingFilter (today : Int) : List TaskRecord → Except Unit (List TaskRecord)
  | [] => .ok []
  | t :: rest =>
    if t.completed then pendingFilter today rest
    else
      match parse_iso t.due with
      | .error u => .error u
      | .ok none => .error ()
      | .ok (some d) =>
        if today < d then do
          let rest2 ← pendingFilter today rest
          .ok (t :: rest2)
        else pendingFilter today rest

/-- Strict lexicographic comparison of two strings as code-point
sequences — Python's `<` on `str` values. -/
def charListLt : List Char → List Char → Bool
  | [], [] => false
  | [], _ :: _ => true
  | _ :: _, [] => false
  | c :: cs, d :: ds =>
    if c < d then true
    else if d < c then false
    else charListLt cs ds

/-- The key order `sorted(..., key=lambda x: x["due"])` uses
(src lines 329-333): a record sorts no later than another when its raw
due string is not lexicographically greater. -/
def dueStrLe (a b : TaskRecord) : Prop :=
  charListLt b.due.toStr.data a.due.toStr.data = false

instance : DecidableRel dueStrLe :=
  fun a b =>
    inferInstanceAs (Decidable (charListLt b.due.toStr.data a.due.toStr.data = false))

/-- The pending list built in `main` (src lines 329-333): filter the
merged registry's records in order, then stable-sort ascending by the
raw due string.  Python's `sorted` is a stable ascending sort, and so
is `List.insertionSort`; a stable sort under a fixed total preorder is
extensionally unique, so the two agree. -/
def pendingSorted (merged : Registry) (today : Int) : Except Unit (List TaskRecord) := do
  let pend ← pendingFilter today (merged.map Prod.snd)
  .ok (pend.insertionSort dueStrLe)

/-- Retention predicate characterizing the prune loop: an entry
survives exactly when its id is among the fresh ids, or its stored due
parses to `None`, or it parses to an instant not strictly before
`now`.  (Entries that would raise are outside the predicate's use;
the characterization lemma pairs it with an error-freeness side
condition.) -/
def keep (fids : List String) (now : Int) (e : String × TaskRecord) : Bool :=
  if fids.contains e.1 then true
  else
    match parse_iso e.2.due with
    | .error _ => false
    | .ok none => true
    | .ok (some d) => if d < now then false else true

/-! Concrete fixtures used by counterexamples and witnesses. -/

/-- A due datetime: 2025-03-02 23:59 at UTC-6. -/
def dt0 : DateTime := ⟨2025, 3, 2, 23, 59, 0, -21600⟩

/-- Same calendar date as `dt0` but a different time of day. -/
def dtY : DateTime := ⟨2025, 3, 2, 8, 0, 0, -21600⟩

/-- The id derived from title "hw" and `dt0`. -/
def id0 : String := task_id "hw" dt0

/-- A persisted, completed record for id `id0` with course "Old". -/
def rOld : TaskRecord :=
  ⟨id0, "hw", "Old", .iso dt0, "Canvas", "u", true⟩

/-- An observation deriving to `id0` with fresh metadata (course
"New", a new url). -/
def obsNew : Obs := ⟨"hw", "New", dt0, "Canvas", "u2"⟩

/-- Two same-identity observations differing in metadata. -/
def obsX : Obs := ⟨"hw", "X", dt0, "Canvas", "u1"⟩

/-- Second of the two colliding observations. -/
def obsY : Obs := ⟨"hw", "Y", dt0, "Canvas", "u2"⟩

/-- A datetime with instant 86400 (1970-01-02 UTC). -/
def dtEpoch : DateTime := ⟨1970, 1, 2, 0, 0, 0, 0⟩

/-- The id of the `rPast` fixture. -/
def idA : String := task_id "a" dtEpoch

/-- A pending record whose due instant is 86400. -/
def rPast : TaskRecord := ⟨idA, "a", "C", .iso dtEpoch, "Canvas", "u", false⟩

/-- A record whose stored due is a malformed non-empty string. -/
def rBad : TaskRecord := ⟨"x", "x", "C", .malformed "oops", "Canvas", "u", false⟩

/-- A record whose stored due is the empty string. -/
def rEmpty : TaskRecord := ⟨"e", "e", "C", .empty, "Canvas", "u", false⟩

/-- A pending record due 2025-03-02T01:00:00+00:00 (instant
1740877200). -/
def rA9 : TaskRecord := ⟨"a", "a", "C", .iso ⟨2025, 3, 2, 1, 0, 0, 0⟩, "Canvas", "u", false⟩

/-- A pending record due 2025-03-01T23:59:00-06:00 (instant
1740895140, later than `rA9`, but lexicographically smaller). -/
def rB9 : TaskRecord := ⟨"b", "b", "C", .iso ⟨2025, 3, 1, 23, 59, 0, -21600⟩, "Canvas", "u", false⟩

/-! Helper lemmas about lookup, the insert loop and the prune loop. -/

theorem lookup_isSome_iff {l : Registry} {a : String} :
    (l.lookup a).isSome ↔ a ∈ l.map Prod.fst := by
  induction l with
  | nil => simp [List.lookup]
  | cons e rest ih =>
    obtain ⟨k, v⟩ := e
    by_cases h : a = k
    · subst h; simp [List.lookup]
    · simp [List.lookup, beq_false_of_ne h, h, ih]

theorem insertFresh_cons (upd : Registry) (a : Obs) (rest : List Obs) :
    insertFresh upd (a :: rest) =
      if ((upd.lookup (task_id a.title a.due)).isSome) then insertFresh upd rest
      else insertFresh (upd ++ [(task_id a.title a.due,
        newRecord (task_id a.title a.due) a)]) rest := rfl

theorem insertFresh_lookup_mono {upd : Registry} {id : String} (F : List Obs)
    (h : (upd.lookup id).isSome) :
    (insertFresh upd F).lookup id = upd.lookup id := by
  induction F generalizing upd with
  | nil => rfl
  | cons a rest ih =>
    rw [insertFresh_cons]
    by_cases hc : (upd.lookup (task_id a.title a.due)).isSome
    · rw [if_pos hc]; exact ih h
    · obtain ⟨v, hv⟩ := Option.isSome_iff_exists.mp h
      have happ : ((upd ++ [(task_id a.title a.due,
          newRecord (task_id a.title a.due) a)]).lookup id) = upd.lookup id := by
        rw [List.lookup_append, hv]; rfl
      rw [if_neg hc, ih (by rw [happ]; exact h), happ]

theorem insertFresh_isSome_of_fresh {upd : Registry} {id : String} {F : List Obs}
    (h : id ∈ freshIds F) :
    ((insertFresh upd F).lookup id).isSome := by
  induction F generalizing upd with
  | nil => simp [freshIds] at h
  | cons a rest ih =>
    rw [insertFresh_cons]
    rcases List.mem_cons.mp h with heq0 | hmem
    · have heq : id = task_id a.title a.due := heq0
      by_cases hc : (upd.lookup (task_id a.title a.due)).isSome
      · rw [if_pos hc, insertFresh_lookup_mono rest (heq ▸ hc)]
        exact heq ▸ hc
      · rw [if_neg hc]
        have hbase : ((upd ++ [(task_id a.title a.due,
            newRecord (task_id a.title a.due) a)]).lookup id).isSome := by
          rw [List.lookup_append, ← heq]
          cases upd.lookup id <;> simp [List.lookup]
        rw [insertFresh_lookup_mono rest hbase]
        exact hbase
    · by_cases hc : (upd.lookup (task_id a.title a.due)).isSome
      · rw [if_pos hc]; exact ih hmem
      · rw [if_neg hc]; exact ih hmem

theorem insertFresh_eq_self {upd : Registry} {F : List Obs}
    (h : ∀ id ∈ freshIds F, (upd.lookup id).isSome) :
    insertFresh upd F = upd := by
  induction F with
  | nil => rfl
  | cons a rest ih =>
    have hc : (upd.lookup (task_id a.title a.due)).isSome :=
      h _ (by simp [freshIds])
    rw [insertFresh_cons, if_pos hc]
    exact ih fun id hid => h id (by simp [freshIds] at hid ⊢; exact .inr hid)

theorem keep_contains {fids : List String} {now : Int} {e : String × TaskRecord}
    (hcon : fids.contains e.1 = true) : keep fids now e = true := by
  simp only [keep, hcon, if_true]

theorem keep_false_contains {fids : List String} {now : Int} {e : String × TaskRecord}
    (hkf : keep fids now e = false) : fids.contains e.1 = false := by
  cases hcon : fids.contains e.1
  · rfl
  · rw [keep_contains hcon] at hkf; exact absurd hkf (by simp)

theorem pruneStale_cons_of_keep {fids : List String} {now : Int} {e : String × TaskRecord}
    {rest : Registry} (hk : keep fids now e = true) :
    pruneStale fids now (e :: rest) = (pruneStale fids now rest).map (e :: ·) := by
  show (if fids.contains e.1 = true then (pruneStale fids now rest).map (e :: ·)
    else match parse_iso e.2.due with
      | .error u => .error u
      | .ok none => (pruneStale fids now rest).map (e :: ·)
      | .ok (some d) =>
        if d < now then pruneStale fids now rest
        else (pruneStale fids now rest).map (e :: ·)) = _
  cases hcon : fids.contains e.1 with
  | true => simp
  | false =>
    simp only [Bool.false_eq_true, if_false]
    simp only [keep, hcon, Bool.false_eq_true, if_false] at hk
    cases hp : parse_iso e.2.due with
    | error u => rw [hp] at hk; exact absurd hk (by simp)
    | ok o =>
      rw [hp] at hk
      cases o with
      | none => rfl
      | some d =>
        by_cases hlt : d < now
        · simp [hlt] at hk
        · simp [hlt]

theorem pruneStale_cons_of_err {fids : List String} {now : Int} {e : String × TaskRecord}
    {rest : Registry} (hcon : fids.contains e.1 = false)
    (herr : parse_iso e.2.due = .error ()) :
    pruneStale fids now (e :: rest) = .error () := by
  show (if fids.contains e.1 = true then (pruneStale fids now rest).map (e :: ·)
    else match parse_iso e.2.due with
      | .error u => .error u
      | .ok none => (pruneStale fids now rest).map (e :: ·)
      | .ok (some d) =>
        if d < now then pruneStale fids now rest
        else (pruneStale fids now rest).map (e :: ·)) = _
  rw [hcon, herr]
  simp

theorem pruneStale_cons_of_drop {fids : List String} {now : Int} {e : String × TaskRecord}
    {rest : Registry} (hkf : keep fids now e = false)
    (herr : parse_iso e.2.due ≠ .error ()) :
    pruneStale fids now (e :: rest) = pruneStale fids now rest := by
  have hcon : fids.contains e.1 = false := keep_false_contains hkf
  show (if fids.contains e.1 = true then (pruneStale fids now rest).map (e :: ·)
    else match parse_iso e.2.due with
      | .error u => .error u
      | .ok none => (pruneStale fids now rest).map (e :: ·)
      | .ok (some d) =>
        if d < now then pruneStale fids now rest
        else (pruneStale fids now rest).map (e :: ·)) = _
  rw [hcon]
  simp only [Bool.false_eq_true, if_false]
  simp only [keep, hcon, Bool.false_eq_true, if_false] at hkf
  cases hp : parse_iso e.2.due with
  | error u => cases u; exact absurd hp herr
  | ok o =>
    rw [hp] at hkf
    cases o with
    | none => exact absurd hkf (by simp)
    | some d =>
      by_cases hlt : d < now
      · simp [hlt]
      · simp [hlt] at hkf

theorem pruneStale_ok_iff {fids : List String} {now : Int} {l m : Registry} :
    pruneStale fids now l = .ok m ↔
      (∀ e ∈ l, fids.contains e.1 = true ∨ parse_iso e.2.due ≠ .error ()) ∧
        m = l.filter (keep fids now) := by
  induction l generalizing m with
  | nil => simp [pruneStale]
  | cons e rest ih =>
    by_cases hk : keep fids now e = true
    · have hor : fids.contains e.1 = true ∨ parse_iso e.2.due ≠ .error () := by
        cases hcon : fids.contains e.1
        · refine .inr fun herr => ?_
          simp only [keep, hcon, Bool.false_eq_true, if_false, herr] at hk
        · exact .inl rfl
      rw [pruneStale_cons_of_keep hk]
      constructor
      · intro h
        cases hr : pruneStale fids now rest with
        | error u => rw [hr] at h; simp [Except.map] at h
        | ok m2 =>
          rw [hr] at h
          simp only [Except.map, Except.ok.injEq] at h
          obtain ⟨hall, hm2⟩ := ih.mp hr
          refine ⟨fun x hx => ?_, ?_⟩
          · rcases List.mem_cons.mp hx with hxe | hxr
            · exact hxe ▸ hor
            · exact hall x hxr
          · rw [← h, hm2, List.filter_cons, hk]
            simp
      · rintro ⟨hall, hm⟩
        have hrest : pruneStale fids now rest = .ok (rest.filter (keep fids now)) :=
          ih.mpr ⟨fun x hx => hall x (List.mem_cons_of_mem _ hx), rfl⟩
        rw [hrest, hm, List.filter_cons, hk]
        simp [Except.map]
    · have hkf : keep fids now e = false := by
        revert hk; cases keep fids now e <;> simp
      by_cases herr : parse_iso e.2.due = .error ()
      · rw [pruneStale_cons_of_err (keep_false_contains hkf) herr]
        constructor
        · intro h; exact absurd h (by simp)
        · rintro ⟨hall, hm⟩
          exfalso
          rcases hall e (List.mem_cons_self e rest) with hcon | hne
          · rw [keep_contains hcon] at hkf; exact absurd hkf (by simp)
          · exact hne herr
      · rw [pruneStale_cons_of_drop hkf herr]
        constructor
        · intro h
          obtain ⟨hall, hm2⟩ := ih.mp h
          refine ⟨fun x hx => ?_, ?_⟩
          · rcases List.mem_cons.mp hx with hxe | hxr
            · exact hxe ▸ .inr herr
            · exact hall x hxr
          · rw [List.filter_cons, hkf, hm2]
            simp
        · rintro ⟨hall, hm⟩
          apply ih.mpr
          refine ⟨fun x hx => hall x (List.mem_cons_of_mem _ hx), ?_⟩
          rw [hm, List.filter_cons, hkf]
          simp

theorem merge_ok_iff {S : Registry} {F : List Obs} {t : Int} {R : Registry} :
    merge_tasks S F t = .ok R ↔
      (∀ e ∈ insertFresh S F,
        (freshIds F).contains e.1 = true ∨ parse_iso e.2.due ≠ .error ()) ∧
        R = (insertFresh S F).filter (keep (freshIds F) t) := by
  exact pruneStale_ok_iff

theorem lookup_cons_self {id : String} {v : TaskRecord} {rest : Registry} :
    List.lookup id ((id, v) :: rest) = some v := by
  simp [List.lookup]

theorem lookup_cons_ne {id k : String} {v : TaskRecord} {rest : Registry}
    (h : id ≠ k) : List.lookup id ((k, v) :: rest) = List.lookup id rest := by
  simp [List.lookup, beq_false_of_ne h]

theorem lookup_mem {l : Registry} {id : String} {v : TaskRecord}
    (h : l.lookup id = some v) : (id, v) ∈ l := by
  induction l with
  | nil => simp [List.lookup] at h
  | cons e rest ih =>
    obtain ⟨k, w⟩ := e
    by_cases hk : id = k
    · subst hk
      rw [lookup_cons_self] at h
      cases h
      exact List.mem_cons_self _ _
    · rw [lookup_cons_ne hk] at h
      exact List.mem_cons_of_mem _ (ih h)

theorem lookup_filter_of_all {l : Registry} {id : String}
    {p : String × TaskRecord → Bool} (h : ∀ r, (id, r) ∈ l → p (id, r) = true) :
    (l.filter p).lookup id = l.lookup id := by
  induction l with
  | nil => rfl
  | cons e rest ih =>
    obtain ⟨k, v⟩ := e
    by_cases hk : id = k
    · subst hk
      rw [List.filter_cons, h v (List.mem_cons_self _ _)]
      rw [if_pos rfl, lookup_cons_self, lookup_cons_self]
    · rw [List.filter_cons]
      by_cases hp : p (k, v) = true
      · rw [hp, if_pos rfl, lookup_cons_ne hk, lookup_cons_ne hk]
        exact ih fun r hr => h r (List.mem_cons_of_mem _ hr)
      · have hpf : p (k, v) = false := by revert hp; cases p (k, v) <;> simp
        rw [hpf]
        simp only [Bool.false_eq_true, if_false]
        rw [lookup_cons_ne hk]
        exact ih fun r hr => h r (List.mem_cons_of_mem _ hr)

theorem lookup_filter_of_nodup {l : Registry} {id : String} {r : TaskRecord}
    {p : String × TaskRecord → Bool} (hnd : (l.map Prod.fst).Nodup)
    (hr : l.lookup id = some r) :
    (l.filter p).lookup id = if p (id, r) then some r else none := by
  induction l with
  | nil => simp [List.lookup] at hr
  | cons e rest ih =>
    obtain ⟨k, v⟩ := e
    simp only [List.map_cons, List.nodup_cons] at hnd
    by_cases hk : id = k
    · subst hk
      rw [lookup_cons_self] at hr
      cases hr
      rw [List.filter_cons]
      by_cases hp : p (id, r) = true
      · rw [hp, if_pos rfl, lookup_cons_self]
        simp
      · have hpf : p (id, r) = false := by revert hp; cases p (id, r) <;> simp
        rw [hpf]
        simp only [Bool.false_eq_true, if_false]
        cases hl : (rest.filter p).lookup id with
        | none => rfl
        | some v2 =>
          exfalso
          have hmem : (id, v2) ∈ rest := (List.mem_filter.mp (lookup_mem hl)).1
          exact hnd.1 (List.mem_map.mpr ⟨(id, v2), hmem, rfl⟩)
    · rw [lookup_cons_ne hk] at hr
      rw [List.filter_cons]
      by_cases hp : p (k, v) = true
      · rw [hp, if_pos rfl, lookup_cons_ne hk]
        exact ih hnd.2 hr
      · have hpf : p (k, v) = false := by revert hp; cases p (k, v) <;> simp
        rw [hpf]
        simp only [Bool.false_eq_true, if_false]
        exact ih hnd.2 hr

theorem insertFresh_nodup_keys {upd : Registry} {F : List Obs}
    (hnd : (upd.map Prod.fst).Nodup) :
    ((insertFresh upd F).map Prod.fst).Nodup := by
  induction F generalizing upd with
  | nil => exact hnd
  | cons a rest ih =>
    rw [insertFresh_cons]
    by_cases hc : (upd.lookup (task_id a.title a.due)).isSome
    · rw [if_pos hc]; exact ih hnd
    · rw [if_neg hc]
      apply ih
      rw [List.map_append]
      apply List.Nodup.append hnd (by simp)
      intro x hx hy
      simp only [List.map_cons, List.map_nil, List.mem_singleton] at hy
      subst hy
      exact hc (lookup_isSome_iff.mpr hx)

theorem insertFresh_mem {upd : Registry} {F : List Obs}
    {e : String × TaskRecord} (h : e ∈ insertFresh upd F) :
    e ∈ upd ∨ ∃ a ∈ F,
      e = (task_id a.title a.due, newRecord (task_id a.title a.due) a) := by
  induction F generalizing upd with
  | nil => exact .inl h
  | cons a rest ih =>
    rw [insertFresh_cons] at h
    by_cases hc : (upd.lookup (task_id a.title a.due)).isSome
    · rw [if_pos hc] at h
      rcases ih h with h1 | ⟨b, hb, he⟩
      · exact .inl h1
      · exact .inr ⟨b, List.mem_cons_of_mem _ hb, he⟩
    · rw [if_neg hc] at h
      rcases ih h with h1 | ⟨b, hb, he⟩
      · rcases List.mem_append.mp h1 with h2 | h2
        · exact .inl h2
        · exact .inr ⟨a, List.mem_cons_self _ _, List.mem_singleton.mp h2⟩
      · exact .inr ⟨b, List.mem_cons_of_mem _ hb, he⟩

theorem merge_keeps_observed {S : Registry} {F : List Obs} {t : Int}
    {R : Registry} {id : String} {r : TaskRecord}
    (hr : S.lookup id = some r) (hid : id ∈ freshIds F)
    (hok : merge_tasks S F t = .ok R) :
    R.lookup id = some r := by
  obtain ⟨-, hR⟩ := merge_ok_iff.mp hok
  have hup : (insertFresh S F).lookup id = some r := by
    rw [insertFresh_lookup_mono F (by rw [hr]; rfl), hr]
  have hcon : (freshIds F).contains id = true := by
    exact List.elem_eq_true_of_mem hid
  rw [hR, lookup_filter_of_all (fun r2 _ => keep_contains hcon), hup]

/-! Claim theorems. -/

/-- C1 (counterexample): the registry holds a record for `id0` with
course "Old" and url "u"; the fresh batch holds an observation deriving
to the same id with course "New" and url "u2".  The claim says the
merge overwrites the record's metadata with the observation's values;
the code leaves the record entirely unchanged. -/
theorem observed_existing_not_overwritten_cex :
    merge_tasks [(id0, rOld)] [obsNew] 0 = .ok [(id0, rOld)] ∧
      rOld.course = "Old" ∧ obsNew.course = "New" ∧
      rOld.url = "u" ∧ obsNew.url = "u2" :=
  ⟨rfl, rfl, rfl, rfl, rfl⟩

/-- C1 (amended): if an observation in the batch derives to an id
already present in the working registry, `merge_tasks` leaves that
record entirely unchanged — title, course, due, url, source and
completed all keep their stored values (no metadata overwrite
happens). -/
theorem merge_existing_record_unchanged {S : Registry} {F : List Obs} {t : Int}
    {R : Registry} {id : String} {r : TaskRecord}
    (hr : S.lookup id = some r) (hid : id ∈ freshIds F)
    (hok : merge_tasks S F t = .ok R) :
    R.lookup id = some r :=
  merge_keeps_observed hr hid hok

/-- Witness for C1's amended theorem at the concrete fixture. -/
theorem merge_existing_record_unchanged_wit :
    merge_tasks [(id0, rOld)] [obsNew] 0 = .ok [(id0, rOld)] ∧
      List.lookup id0 [(id0, rOld)] = some rOld :=
  ⟨rfl, @merge_existing_record_unchanged [(id0, rOld)] [obsNew] 0
    [(id0, rOld)] id0 rOld rfl (List.mem_singleton.mpr rfl) rfl⟩

/-- C2: reconciliation is idempotent — if merging `F` at instant `t`
into `S` produces registry `R`, merging `F` at `t` into `R` produces
`R` again. -/
theorem merge_idempotent {S : Registry} {F : List Obs} {t : Int} {R : Registry}
    (h : merge_tasks S F t = .ok R) : merge_tasks R F t = .ok R := by
  obtain ⟨hall, hR⟩ := merge_ok_iff.mp h
  have hfresh : ∀ id ∈ freshIds F, (R.lookup id).isSome := by
    intro id hid
    have h1 : ((insertFresh S F).lookup id).isSome := insertFresh_isSome_of_fresh hid
    have hcon : (freshIds F).contains id = true := List.elem_eq_true_of_mem hid
    rw [hR, lookup_filter_of_all (fun r2 _ => keep_contains hcon)]
    exact h1
  have hins : insertFresh R F = R := insertFresh_eq_self hfresh
  apply merge_ok_iff.mpr
  rw [hins]
  constructor
  · intro e he
    have heU : e ∈ insertFresh S F := by
      rw [hR] at he; exact (List.mem_filter.mp he).1
    exact hall e heU
  · symm
    rw [List.filter_eq_self]
    intro e he
    rw [hR] at he
    exact (List.mem_filter.mp he).2

/-- Witness for C2 at a concrete fixture: the first merge inserts the
observed record; the second merge returns the same registry. -/
theorem merge_idempotent_wit :
    merge_tasks [(id0, newRecord id0 obsNew)] [obsNew] 0 =
      .ok [(id0, newRecord id0 obsNew)] :=
  merge_idempotent (S := []) rfl

/-- C3: flag preservation — a record with `completed = true` whose id
is derived by some observation of the batch still has
`completed = true` after the merge. -/
theorem merge_preserves_completed {S : Registry} {F : List Obs} {t : Int}
    {R : Registry} {id : String} {r : TaskRecord}
    (hr : S.lookup id = some r) (hc : r.completed = true)
    (hid : id ∈ freshIds F) (hok : merge_tasks S F t = .ok R) :
    ∃ r2, R.lookup id = some r2 ∧ r2.completed = true :=
  ⟨r, merge_keeps_observed hr hid hok, hc⟩

/-- Witness for C3 at the concrete fixture (`rOld` is completed). -/
theorem merge_preserves_completed_wit :
    rOld.completed = true ∧
      ∃ r2, List.lookup id0 [(id0, rOld)] = some r2 ∧ r2.completed = true :=
  ⟨rfl, @merge_preserves_completed [(id0, rOld)] [obsNew] 0 [(id0, rOld)]
    id0 rOld rfl rfl (List.mem_singleton.mpr rfl) rfl⟩

/-- C4: pruning correctness — a record whose id no observation derives
is deleted exactly when its stored due parses to an instant strictly
before `t`, and retained unchanged when the parsed instant is at or
after `t`. -/
theorem merge_prunes_stale_unobserved {S : Registry} {F : List Obs} {t : Int}
    {R : Registry} {id : String} {r : TaskRecord}
    (hnd : (S.map Prod.fst).Nodup) (hr : S.lookup id = some r)
    (hid : id ∉ freshIds F) (hok : merge_tasks S F t = .ok R) :
    (∀ d, parse_iso r.due = .ok (some d) → d < t → R.lookup id = none) ∧
      (∀ d, parse_iso r.due = .ok (some d) → t ≤ d → R.lookup id = some r) := by
  obtain ⟨hall, hR⟩ := merge_ok_iff.mp hok
  have hup : (insertFresh S F).lookup id = some r := by
    rw [insertFresh_lookup_mono F (by rw [hr]; rfl), hr]
  have hndU : ((insertFresh S F).map Prod.fst).Nodup := insertFresh_nodup_keys hnd
  have hfl := lookup_filter_of_nodup (p := keep (freshIds F) t) hndU hup
  have hcon : (freshIds F).contains id = false := by
    cases hcc : (freshIds F).contains id
    · rfl
    · exact absurd (List.mem_of_elem_eq_true hcc) hid
  constructor
  · intro d hp hlt
    have hkf : keep (freshIds F) t (id, r) = false := by
      simp [keep, hcon, hp, hlt, hid]
    rw [hR, hfl, hkf]
    simp
  · intro d hp hge
    have hkt : keep (freshIds F) t (id, r) = true := by
      simp [keep, hcon, hp, not_lt.mpr hge, hid]
    rw [hR, hfl, hkt]
    simp

/-- Witness for C4: the unobserved record due at instant 86400 is
deleted at `t = 1000000` and retained unchanged at `t = 0`. -/
theorem merge_prunes_stale_unobserved_wit :
    List.lookup idA ([] : Registry) = none ∧
      List.lookup idA [(idA, rPast)] = some rPast :=
  ⟨(@merge_prunes_stale_unobserved [(idA, rPast)] [] 1000000 [] idA rPast
      (by decide) rfl (by decide) rfl).1 86400 rfl (by decide),
   (@merge_prunes_stale_unobserved [(idA, rPast)] [] 0 [(idA, rPast)] idA rPast
      (by decide) rfl (by decide) rfl).2 86400 rfl (by decide)⟩

/-- C5 (counterexample): a registry record whose stored due is the
malformed non-empty string "oops" makes the merge raise (Python's
`datetime.fromisoformat` raises `ValueError`), instead of being
retained with the merge completing. -/
theorem malformed_due_raises_cex :
    merge_tasks [("x", rBad)] [] 0 = .error () := rfl

/-- C5 (amended): the unparseable due strings that are tolerated are
the empty/missing ones — `parse_iso` returns `None` for them, the
record is excluded from pruning and retained unchanged, and when no
stored due of the registry is a malformed non-empty string the merge
completes without error.  A malformed non-empty due instead raises. -/
theorem empty_due_never_pruned {S : Registry} {F : List Obs} {t : Int}
    {id : String} {r : TaskRecord}
    (hS : ∀ e ∈ S, parse_iso e.2.due ≠ .error ())
    (hnd : (S.map Prod.fst).Nodup)
    (hr : S.lookup id = some r) (hdue : parse_iso r.due = .ok none) :
    ∃ R, merge_tasks S F t = .ok R ∧ R.lookup id = some r := by
  have hallU : ∀ e ∈ insertFresh S F,
      (freshIds F).contains e.1 = true ∨ parse_iso e.2.due ≠ .error () := by
    intro e he
    rcases insertFresh_mem he with h1 | ⟨a, ha, he2⟩
    · exact .inr (hS e h1)
    · subst he2
      exact .inr (by simp [newRecord, parse_iso])
  refine ⟨(insertFresh S F).filter (keep (freshIds F) t),
    merge_ok_iff.mpr ⟨hallU, rfl⟩, ?_⟩
  have hup : (insertFresh S F).lookup id = some r := by
    rw [insertFresh_lookup_mono F (by rw [hr]; rfl), hr]
  rw [lookup_filter_of_nodup (insertFresh_nodup_keys hnd) hup]
  have hkt : keep (freshIds F) t (id, r) = true := by
    cases hcon : (freshIds F).contains id
    · simp [keep, hcon, hdue]
    · exact keep_contains hcon
  rw [hkt]
  simp

/-- Witness for C5's amended theorem: a registry with one empty-due
record merges without error and the record survives. -/
theorem empty_due_never_pruned_wit :
    ∃ R, merge_tasks [("e", rEmpty)] [] 5 = .ok R ∧
      List.lookup "e" R = some rEmpty :=
  empty_due_never_pruned
    (fun e he => by
      have he2 : e = ("e", rEmpty) := by simpa using he
      rw [he2]
      simp [rEmpty, parse_iso])
    (by decide) rfl rfl

/-- C6 (counterexample): a deadline 7 days and 1 hour away classifies
as the week tier, not the later tier — 169 whole hours give
`169 // 24 = 7` whole days, and the week branch covers day counts up
to and including 7. -/
theorem seven_days_one_hour_is_week_cex :
    urgency_label (169 * 3600) 0 = Tier.week ∧ Tier.week ≠ Tier.later :=
  ⟨rfl, by decide⟩

/-- C6 (amended): for every reference instant, 23h59m away is urgent,
24h away is tomorrow, 7 days away is week, 7 days 1 hour away is still
week, and the later tier starts at 8 whole days. -/
theorem urgency_boundaries (now : Int) :
    urgency_label (now + 86340) now = Tier.urgent ∧
      urgency_label (now + 86400) now = Tier.tomorrow ∧
      urgency_label (now + 604800) now = Tier.week ∧
      urgency_label (now + 608400) now = Tier.week ∧
      urgency_label (now + 691200) now = Tier.later := by
  have hshift : ∀ k : Int, urgency_label (now + k) now = urgency_label k 0 := by
    intro k
    simp [urgency_label, add_sub_cancel_left]
  rw [hshift, hshift, hshift, hshift, hshift]
  exact ⟨rfl, rfl, rfl, rfl, rfl⟩

/-- C7 (counterexample): two observations in one batch derive to the
same id; the resulting record carries the metadata of the FIRST
(course "X"), not of the later-processed one (course "Y") as the claim
says. -/
theorem earlier_observation_wins_cex :
    merge_tasks [] [obsX, obsY] 0 = .ok [(id0, newRecord id0 obsX)] ∧
      (newRecord id0 obsX).course = "X" ∧ obsY.course = "Y" :=
  ⟨rfl, rfl, rfl⟩

/-- C7 (amended): of several observations in a batch deriving to the
same id not already present in the registry, the earliest-processed
one wins — the resulting record is built from it, later ones are
ignored. -/
theorem first_observation_wins {S : Registry} {F1 F2 : List Obs} {a : Obs}
    {t : Int} {R : Registry} {id : String}
    (ha : task_id a.title a.due = id) (hS : S.lookup id = none)
    (hF1 : id ∉ freshIds F1)
    (hok : merge_tasks S (F1 ++ a :: F2) t = .ok R) :
    R.lookup id = some (newRecord id a) := by
  have hins : ∀ S2 : Registry, S2.lookup id = none →
      (insertFresh S2 (F1 ++ a :: F2)).lookup id = some (newRecord id a) := by
    clear hok hS
    induction F1 with
    | nil =>
      intro S2 hS2
      rw [List.nil_append, insertFresh_cons, ha, hS2]
      simp only [Option.isSome_none, Bool.false_eq_true, if_false]
      have hl : (S2 ++ [(id, newRecord id a)]).lookup id = some (newRecord id a) := by
        rw [List.lookup_append, hS2]
        simp [List.lookup]
      rw [insertFresh_lookup_mono F2 (by rw [hl]; rfl), hl]
    | cons b F1b ih =>
      intro S2 hS2
      have hne : id ≠ task_id b.title b.due := by
        intro he
        exact hF1 (by simp [freshIds, he])
      have hF1b : id ∉ freshIds F1b := by
        intro hmem
        exact hF1 (by simp [freshIds] at hmem ⊢; exact .inr hmem)
      rw [List.cons_append, insertFresh_cons]
      by_cases hc : (S2.lookup (task_id b.title b.due)).isSome
      · rw [if_pos hc]
        exact ih hF1b S2 hS2
      · rw [if_neg hc]
        apply ih hF1b
        rw [List.lookup_append, hS2]
        simp [List.lookup, beq_false_of_ne hne]
  obtain ⟨-, hR⟩ := merge_ok_iff.mp hok
  have hmem : id ∈ freshIds (F1 ++ a :: F2) := by
    simp only [freshIds, List.map_append, List.map_cons, List.mem_append,
      List.mem_cons]
    exact .inr (.inl ha.symm)
  have hcon : (freshIds (F1 ++ a :: F2)).contains id = true :=
    List.elem_eq_true_of_mem hmem
  rw [hR, lookup_filter_of_all (fun r2 _ => keep_contains hcon), hins S hS]

/-- Witness for C7's amended theorem at the two-observation fixture. -/
theorem first_observation_wins_wit :
    ∃ R, merge_tasks [] [obsX, obsY] 0 = .ok R ∧
      List.lookup id0 R = some (newRecord id0 obsX) :=
  ⟨[(id0, newRecord id0 obsX)], rfl,
    @first_observation_wins [] [] [obsY] obsX 0 [(id0, newRecord id0 obsX)]
      id0 rfl rfl (by simp [freshIds]) rfl⟩

/-- C8 (counterexample): `merge_tasks` reads the ambient clock (the
embedding's `now` parameter stands for the internal `now_ct()` call),
and its result depends on it — the same registry and batch merge to
different registries at two different wall-clock instants, refuting
"identical results regardless of the wall clock". -/
theorem merge_depends_on_ambient_clock_cex :
    merge_tasks [(idA, rPast)] [] 0 ≠ merge_tasks [(idA, rPast)] [] 1000000 := by
  have h1 : merge_tasks [(idA, rPast)] [] 0 = .ok [(idA, rPast)] := rfl
  have h2 : merge_tasks [(idA, rPast)] [] 1000000 = .ok [] := rfl
  rw [h1, h2]
  intro h
  exact absurd (Except.ok.inj h) (by simp)

/-- C8 (amended): the merge is deterministic only once the ambient
instant is fixed as an input; two ambient instants give identical
merges exactly when they classify every stored due identically
(no past/future classification change). -/
theorem merge_clock_invariant {S : Registry} {F : List Obs} {t1 t2 : Int}
    (h : ∀ e ∈ insertFresh S F, ∀ d,
      parse_iso e.2.due = .ok (some d) → (d < t1 ↔ d < t2)) :
    merge_tasks S F t1 = merge_tasks S F t2 := by
  show pruneStale (freshIds F) t1 (insertFresh S F) =
    pruneStale (freshIds F) t2 (insertFresh S F)
  generalize insertFresh S F = l at h ⊢
  induction l with
  | nil => rfl
  | cons e rest ih =>
    have hh := h e (List.mem_cons_self _ _)
    have hrest := ih fun x hx d hd => h x (List.mem_cons_of_mem _ hx) d hd
    have hkeq : keep (freshIds F) t1 e = keep (freshIds F) t2 e := by
      unfold keep
      cases hcon : (freshIds F).contains e.1
      · simp only [Bool.false_eq_true, if_false]
        cases hp : parse_iso e.2.due with
        | error u => rfl
        | ok o =>
          cases o with
          | none => rfl
          | some d =>
            have hiff := hh d hp
            show (if d < t1 then false else true) = (if d < t2 then false else true)
            by_cases hl1 : d < t1
            · rw [if_pos hl1, if_pos (hiff.mp hl1)]
            · rw [if_neg hl1, if_neg (fun h2 => hl1 (hiff.mpr h2))]
      · simp
    by_cases hk : keep (freshIds F) t1 e = true
    · rw [pruneStale_cons_of_keep hk, pruneStale_cons_of_keep (hkeq ▸ hk), hrest]
    · have hkf : keep (freshIds F) t1 e = false := by
        revert hk; cases keep (freshIds F) t1 e <;> simp
      by_cases herr : parse_iso e.2.due = .error ()
      · rw [pruneStale_cons_of_err (keep_false_contains hkf) herr,
          pruneStale_cons_of_err (keep_false_contains (hkeq ▸ hkf)) herr]
      · rw [pruneStale_cons_of_drop hkf herr,
          pruneStale_cons_of_drop (hkeq ▸ hkf) herr, hrest]

/-- Witness for C8's amended theorem: instants 0 and 10 are both
before the fixture's only due instant 86400, so the merges agree. -/
theorem merge_clock_invariant_wit :
    merge_tasks [(idA, rPast)] [] 0 = merge_tasks [(idA, rPast)] [] 10 :=
  @merge_clock_invariant [(idA, rPast)] [] 0 10
    (by
      intro e he d hd
      have he2 : e = (idA, rPast) := by
        simpa [insertFresh] using he
      subst he2
      have hp : parse_iso rPast.due = .ok (some 86400) := rfl
      rw [hp] at hd
      have hd2 : (86400 : Int) = d := by simpa using hd
      subst hd2
      constructor <;> intro h2 <;> omega)

/-- The strict string comparison is asymmetric. -/
theorem charListLt_asymm : ∀ {x y : List Char},
    charListLt x y = true → charListLt y x = false := by
  intro x
  induction x with
  | nil =>
    intro y h
    cases y with
    | nil => exact absurd h (by simp [charListLt])
    | cons d ds => rfl
  | cons c cs ih =>
    intro y h
    cases y with
    | nil => exact absurd h (by simp [charListLt])
    | cons d ds =>
      show (if d < c then true else if c < d then false else charListLt ds cs) = false
      by_cases h1 : c < d
      · rw [if_neg (lt_asymm h1), if_pos h1]
      · by_cases h2 : d < c
        · simp only [charListLt, if_neg h1, if_pos h2] at h
          exact absurd h (by simp)
        · rw [if_neg h2, if_neg h1]
          simp only [charListLt, if_neg h1, if_neg h2] at h
          exact ih h

/-- Non-strict string comparison is transitive. -/
theorem charListLt_false_trans : ∀ (x : List Char) {y z : List Char},
    charListLt y x = false → charListLt z y = false → charListLt z x = false := by
  intro x
  induction x with
  | nil =>
    intro y z h1 h2
    cases z with
    | nil => rfl
    | cons c cs => rfl
  | cons a as ih =>
    intro y z h1 h2
    cases y with
    | nil =>
      exact absurd h1 (by simp [charListLt])
    | cons b bs =>
      cases z with
      | nil => exact absurd h2 (by simp [charListLt])
      | cons c cs =>
        simp only [charListLt] at h1 h2 ⊢
        by_cases hba : b < a
        · rw [if_pos hba] at h1; exact absurd h1 (by simp)
        · rw [if_neg hba] at h1
          by_cases hcb : c < b
          · rw [if_pos hcb] at h2; exact absurd h2 (by simp)
          · rw [if_neg hcb] at h2
            have hab : a ≤ b := not_lt.mp hba
            have hbc : b ≤ c := not_lt.mp hcb
            have hac : a ≤ c := le_trans hab hbc
            rw [if_neg (not_lt.mpr hac)]
            by_cases hca : a < c
            · rw [if_pos hca]
            · rw [if_neg hca]
              have hceq : a = c := le_antisymm hac (not_lt.mp hca)
              have hbeq : a = b := le_antisymm hab (by rw [hceq]; exact hbc)
              rw [if_neg (by rw [← hbeq]; exact lt_irrefl a)] at h1
              rw [if_neg (by rw [← hbeq, ← hceq]; exact lt_irrefl a)] at h2
              exact ih h1 h2

/-- C9 (counterexample): `main` sorts pending records by the raw due
string.  The registry holds `rA9` (due instant 1740877200, rendered
"2025-03-02T01:00:00+00:00") and `rB9` (due instant 1740895140,
rendered "2025-03-01T23:59:00-06:00"): the output lists `rB9` first
because its string is lexicographically smaller, although its due
instant is strictly later — the pending list is not in ascending order
of due instants. -/
theorem pending_sorted_by_string_cex :
    pendingSorted [("a", rA9), ("b", rB9)] 0 = .ok [rB9, rA9] ∧
      ∃ dA dB, parse_iso rA9.due = .ok (some dA) ∧
        parse_iso rB9.due = .ok (some dB) ∧ dA < dB :=
  ⟨rfl, 1740877200, 1740895140, rfl, rfl, by decide⟩

/-- C9 (amended): the pending list is sorted ascending by the raw due
STRING (lexicographic code-point order, Python comparing the strings,
not the parsed instants), and is a permutation of the filtered pending
records; the sort is stable, so the ordering is deterministic. -/
theorem pending_sorted_by_due_string {M : Registry} {today : Int}
    {l : List TaskRecord} (h : pendingSorted M today = .ok l) :
    l.Sorted dueStrLe ∧
      ∃ p, pendingFilter today (M.map Prod.snd) = .ok p ∧ l.Perm p := by
  haveI : IsTotal TaskRecord dueStrLe := by
    constructor
    intro a b
    cases hlt : charListLt b.due.toStr.data a.due.toStr.data
    · exact .inl hlt
    · exact .inr (charListLt_asymm hlt)
  haveI : IsTrans TaskRecord dueStrLe := by
    constructor
    intro a b c h1 h2
    exact charListLt_false_trans _ h1 h2
  unfold pendingSorted at h
  cases hp : pendingFilter today (M.map Prod.snd) with
  | error u => rw [hp] at h; simp [Bind.bind, Except.bind] at h
  | ok p =>
    rw [hp] at h
    simp only [Bind.bind, Except.bind, Except.ok.injEq] at h
    exact ⟨h ▸ List.sorted_insertionSort _ _, p, rfl, h ▸ List.perm_insertionSort _ _⟩

/-- Witness for C9's amended theorem at the two-record fixture. -/
theorem pending_sorted_by_due_string_wit :
    ([rB9, rA9] : List TaskRecord).Sorted dueStrLe ∧
      ∃ p, pendingFilter 0 ([("a", rA9), ("b", rB9)].map Prod.snd) = .ok p ∧
        ([rB9, rA9] : List TaskRecord).Perm p :=
  @pending_sorted_by_due_string [("a", rA9), ("b", rB9)] 0 [rB9, rA9] rfl

/-- Decimal digit characters are distinct. -/
theorem digitChar_inj :
    ∀ a, a < 10 → ∀ b, b < 10 → digitChar a = digitChar b → a = b := by
  decide

/-- The 8-character date suffix of an id determines its digits. -/
theorem date8_length (dt : DateTime) : (date8 dt).length = 8 := rfl

/-- C10: ids deriving equal force equal calendar dates — the id ends
in the fixed-width 8-digit year-month-day of the due datetime, so
`task_id t1 d1 = task_id t2 d2` implies `d1` and `d2` share year,
month and day (bounds are the ones Python's `datetime` enforces). -/
theorem task_id_same_date {t1 t2 : String} {d1 d2 : DateTime}
    (hy1 : d1.year < 10000) (hm1 : d1.month < 100) (hd1 : d1.day < 100)
    (hy2 : d2.year < 10000) (hm2 : d2.month < 100) (hd2 : d2.day < 100)
    (h : task_id t1 d1 = task_id t2 d2) :
    d1.year = d2.year ∧ d1.month = d2.month ∧ d1.day = d2.day := by
  have hdata : ((normalizeTitle t1).data ++ "__".data) ++ date8 d1 =
      ((normalizeTitle t2).data ++ "__".data) ++ date8 d2 := by
    have h2 := congrArg String.data h
    simp only [task_id, String.data_append] at h2
    simpa [List.append_assoc] using h2
  have hsuffix : date8 d1 = date8 d2 :=
    (List.append_inj' hdata (by rw [date8_length, date8_length])).2
  simp only [date8, pad4, pad2, List.cons_append, List.nil_append,
    List.cons.injEq, and_true] at hsuffix
  obtain ⟨e1, e2, e3, e4, e5, e6, e7, e8⟩ := hsuffix
  have t10 : (0 : Nat) < 10 := by norm_num
  have g1 := digitChar_inj _ (Nat.mod_lt _ t10) _ (Nat.mod_lt _ t10) e1
  have g2 := digitChar_inj _ (Nat.mod_lt _ t10) _ (Nat.mod_lt _ t10) e2
  have g3 := digitChar_inj _ (Nat.mod_lt _ t10) _ (Nat.mod_lt _ t10) e3
  have g4 := digitChar_inj _ (Nat.mod_lt _ t10) _ (Nat.mod_lt _ t10) e4
  have g5 := digitChar_inj _ (Nat.mod_lt _ t10) _ (Nat.mod_lt _ t10) e5
  have g6 := digitChar_inj _ (Nat.mod_lt _ t10) _ (Nat.mod_lt _ t10) e6
  have g7 := digitChar_inj _ (Nat.mod_lt _ t10) _ (Nat.mod_lt _ t10) e7
  have g8 := digitChar_inj _ (Nat.mod_lt _ t10) _ (Nat.mod_lt _ t10) e8
  refine ⟨?_, ?_, ?_⟩ <;> omega

/-- Witness for C10: two different titles normalizing alike, with
different times of day on the same date, derive the same id, and the
theorem recovers the equal calendar date. -/
theorem task_id_same_date_wit :
    task_id "HW 5!" dt0 = task_id "hw_5_" dtY ∧
      dt0.year = dtY.year ∧ dt0.month = dtY.month ∧ dt0.day = dtY.day :=
  ⟨rfl, @task_id_same_date "HW 5!" "hw_5_" dt0 dtY (by decide) (by decide)
    (by decide) (by decide) (by decide) (by decide) rfl⟩

end Sync
